import Mathlib

/-!
Verification of the stybulate table renderer.

The Rust sources are shallowly embedded: Rust strings are lists of Unicode
scalar values (Rust chars), with UTF-8 byte lengths made explicit where the
source measures bytes.  Numeric cells carry their decimal display rendering
(the string produced by the Rust Display implementation); fixed-precision
formatting is modelled as exact decimal padding and rounding of that
rendering.  Panics are modelled with Except.
-/

deriving instance DecidableEq for Except

set_option maxRecDepth 100000

namespace Stybulate

/-- Rust strings modelled as lists of Unicode scalar values. -/
abbrev RStr := List Char

/-- UTF-8 byte length of a string; models Rust str::len. -/
def utf8Len (s : RStr) : Nat := (s.map Char.utf8Size).sum

/-- Display width of one character, modelling the unicode-width crate:
    wide East-Asian ranges occupy 2 columns, control characters 0,
    everything else 1. -/
def charWidth (c : Char) : Nat :=
  if c.toNat < 0x20 ∨ c.toNat = 0x7F then 0
  else if (0x1100 ≤ c.toNat ∧ c.toNat ≤ 0x115F) ∨
          (0x2E80 ≤ c.toNat ∧ c.toNat ≤ 0x303E) ∨
          (0x3041 ≤ c.toNat ∧ c.toNat ≤ 0x33FF) ∨
          (0x3400 ≤ c.toNat ∧ c.toNat ≤ 0x4DBF) ∨
          (0x4E00 ≤ c.toNat ∧ c.toNat ≤ 0x9FFF) ∨
          (0xA000 ≤ c.toNat ∧ c.toNat ≤ 0xA4CF) ∨
          (0xAC00 ≤ c.toNat ∧ c.toNat ≤ 0xD7A3) ∨
          (0xF900 ≤ c.toNat ∧ c.toNat ≤ 0xFAFF) ∨
          (0xFE30 ≤ c.toNat ∧ c.toNat ≤ 0xFE4F) ∨
          (0xFF00 ≤ c.toNat ∧ c.toNat ≤ 0xFF60) ∨
          (0xFFE0 ≤ c.toNat ∧ c.toNat ≤ 0xFFE6) ∨
          (0x20000 ≤ c.toNat ∧ c.toNat ≤ 0x3FFFD) then 2
  else 1

/-- Display width of a string; models UnicodeWidthStr::width. -/
def strWidth (s : RStr) : Nat := (s.map charWidth).sum

/-- Parser state of the escape-sequence stripper. -/
inductive StripMode | norm | sawEsc | inCsi
deriving DecidableEq

/-- State machine of the strip-ansi-escapes crate: an ESC starts a sequence,
    ESC LBRACKET starts a CSI sequence that runs to its final byte
    (0x40-0x7E); all other characters pass through. -/
def stripGo : StripMode → RStr → RStr
  | _, [] => []
  | .norm, c :: rest =>
      if c = '\x1b' then stripGo .sawEsc rest else c :: stripGo .norm rest
  | .sawEsc, c :: rest =>
      if c = '[' then stripGo .inCsi rest else stripGo .norm rest
  | .inCsi, c :: rest =>
      if 0x40 ≤ c.toNat ∧ c.toNat ≤ 0x7E then stripGo .norm rest
      else stripGo .inCsi rest

/-- Models fn strip in lib.rs (strip ANSI escape sequences). -/
def strip (s : RStr) : RStr := stripGo .norm s

/-- Rust str::split with separator newline: always yields at least one
    (possibly empty) segment, and keeps empty segments. -/
def splitNl : RStr → List RStr
  | [] => [[]]
  | c :: rest =>
    if c = '\n' then [] :: splitNl rest
    else
      match splitNl rest with
      | [] => [[c]]
      | l :: ls => (c :: l) :: ls

/-- Rust slice join: concatenation with a separator between elements. -/
def sepJoin (sep : RStr) : List RStr → RStr
  | [] => []
  | [x] => x
  | x :: y :: xs => x ++ sep ++ sepJoin sep (y :: xs)

/-- Joining lines with a single newline. -/
def joinNl (ls : List RStr) : RStr := sepJoin ['\n'] ls

/-- ASCII fragment of Rust char::is_whitespace; the renderer only ever
    produces ASCII padding, so only these can trail a line. -/
def isWs (c : Char) : Bool :=
  c = ' ' ∨ c = '\t' ∨ c = '\n' ∨ c = '\r' ∨ c = '\x0b' ∨ c = '\x0c'

/-- Rust str::trim_end. -/
def trimEnd (s : RStr) : RStr := (s.reverse.dropWhile isWs).reverse

/-- Rust String::repeat: the string concatenated n times. -/
def repeatStr (s : RStr) (n : Nat) : RStr := (List.replicate n s).flatten

/-- Maximum of a list of naturals, 0 when empty; models
    Iterator::max combined with get_or_insert(0). -/
def maxNat : List Nat → Nat
  | [] => 0
  | x :: xs => max x (maxNat xs)

/-- Split a string at its first dot: returns the part before the first dot
    and, when a dot occurs, the part after it.  Captures the
    s.find and slicing idiom of the source. -/
def splitAtDot : RStr → RStr × Option RStr
  | [] => ([], none)
  | c :: rest =>
    if c = '.' then ([], some rest)
    else
      let r := splitAtDot rest
      (c :: r.1, r.2)

/-- Split a string at its first newline: the part before it and, when a
    newline occurs, the part after it.  Captures the c.find combined with
    split_off idiom of line_to_multi. -/
def splitCell : RStr → RStr × Option RStr
  | [] => ([], none)
  | c :: rest =>
    if c = '\n' then ([], some rest)
    else
      let r := splitCell rest
      (c :: r.1, r.2)

/-- Index of the last dot of a string, counted in characters; models
    str::rfind (whose byte index addresses the same position, the suffix
    being ASCII wherever the caller uses the result). -/
def rfindDot : RStr → Option Nat
  | [] => none
  | c :: rest =>
    match rfindDot rest with
    | some i => some (i + 1)
    | none => if c = '.' then some 0 else none

/-- Rust right-justification: format with alignment marker greater-than.
    Rust fmt pads by character count. -/
def justRight (s : RStr) (w : Nat) : RStr := List.replicate (w - s.length) ' ' ++ s

/-- Rust left-justification. -/
def justLeft (s : RStr) (w : Nat) : RStr := s ++ List.replicate (w - s.length) ' '

/-- Rust centering: the extra space goes to the right. -/
def justCenter (s : RStr) (w : Nat) : RStr :=
  let pad := w - s.length
  List.replicate (pad / 2) ' ' ++ s ++ List.replicate (pad - pad / 2) ' '

/-- The Align::Decimal arm of create_data_line: right justify, then when
    every byte after the rightmost dot is the zero digit, replace from the
    dot onward by that many spaces. -/
def decimalJustify (s : RStr) (w : Nat) : RStr :=
  let out := justRight s w
  match rfindDot out with
  | some dot =>
    if (out.drop (dot + 1)).all (fun c => c = '0') then
      out.take dot ++ List.replicate (out.length - dot) ' '
    else out
  | none => out

/-- Whether pat occurs at the head of s. -/
def headMatches : RStr → RStr → Bool
  | _, [] => true
  | [], _ :: _ => false
  | c :: s, p :: ps => c = p && headMatches s ps

/-- Fuel-driven body of replaceAll. -/
def replaceAllAux : Nat → RStr → RStr → RStr → RStr
  | 0, s, _, _ => s
  | fuel + 1, s, pat, rep =>
    match s with
    | [] => []
    | c :: rest =>
      if headMatches s pat then rep ++ replaceAllAux fuel (s.drop pat.length) pat rep
      else c :: replaceAllAux fuel rest pat rep

/-- Rust str::replace: replace every non-overlapping occurrence of pat,
    left to right; with an empty pattern the replacement is inserted at
    every character boundary. -/
def replaceAll (s pat rep : RStr) : RStr :=
  if pat = [] then rep ++ s.foldr (fun c acc => c :: rep ++ acc) []
  else replaceAllAux (s.length + 1) s pat rep

-- constants
def MIN_PADDING : Nat := 2

/-- The column alignments. -/
inductive Align
  | Left
  | Center
  | Right
  | Decimal
deriving DecidableEq

/-- The style of the table. -/
inductive Style
  | Plain
  | Simple
  | Github
  | Grid
  | Fancy
  | Presto
  | FancyGithub
  | FancyPresto
deriving DecidableEq

/-- The content of each cell of the table.  A Float cell is modelled by its
    Rust Display rendering (the shortest decimal string that reads back to
    the same value), which is all the source ever computes from it. -/
inductive Cell
  | Int (i : Int)
  | Float (disp : RStr)
  | Text (s : RStr)
deriving DecidableEq

/-- Rust i32 Display. -/
def intToStr (i : Int) : RStr := (toString i).data

namespace Cell

/-- Cell::is_a_number. -/
def is_a_number : Cell → Bool
  | .Int _ | .Float _ => true
  | .Text _ => false

/-- Cell::to_str: the natural string form. -/
def to_str : Cell → RStr
  | .Text s => s
  | .Int i => intToStr i
  | .Float disp => disp

/-- Increment a decimal digit string by one (least significant digit first). -/
def incDigitsRev : RStr → RStr
  | [] => ['1']
  | c :: rest => if c = '9' then '0' :: incDigitsRev rest else (Char.ofNat (c.toNat + 1)) :: rest

/-- Increment a decimal digit string by one. -/
def incDigits (ds : RStr) : RStr := (incDigitsRev ds.reverse).reverse

/-- Odd decimal digit test, used by the ties-to-even rounding rule. -/
def isOddDigit (c : Char) : Bool :=
  c = '1' ∨ c = '3' ∨ c = '5' ∨ c = '7' ∨ c = '9'

/-- Rounding a decimal rendering ip.frac to d fraction digits, d strictly
    below the available digits: round to nearest, ties to even, treating the
    decimal expansion as exact.  Models Rust fixed-precision float
    formatting in the truncating case (which the renderer never reaches,
    since the requested precision is always the column maximum). -/
def floatRound (ip frac : RStr) (d : Nat) : RStr :=
  let sm : RStr × RStr := match ip with
    | '-' :: rest => (['-'], rest)
    | _ => ([], ip)
  let kept := sm.2 ++ frac.take d
  let up := match frac.drop d with
    | [] => false
    | r :: rs =>
      if '5' < r then true
      else if r < '5' then false
      else if rs.any (fun c => c ≠ '0') then true
      else isOddDigit ((kept.getLast?).getD '0')
  let kept2 := if up then incDigits kept else kept
  sm.1 ++ (if d = 0 then kept2 else kept2.take (kept2.length - d) ++ '.' :: kept2.drop (kept2.length - d))

/-- Fixed-precision formatting of the decimal rendering disp of a float:
    pad the fraction with zero digits up to d, or round when d is smaller.
    Models the format macro with precision d applied to the float. -/
def floatFormat (disp : RStr) (d : Nat) : RStr :=
  match splitAtDot disp with
  | (ip, none) => if d = 0 then ip else ip ++ '.' :: List.replicate d '0'
  | (ip, some frac) =>
    if frac.length ≤ d then
      if d = 0 then ip else ip ++ '.' :: (frac ++ List.replicate (d - frac.length) '0')
    else floatRound ip frac d

/-- Cell::to_str_with_digits: the fixed-precision string form. -/
def to_str_with_digits (c : Cell) (digits : Nat) : RStr :=
  match c with
  | .Text s => s
  | .Int i => intToStr i ++ (if digits = 0 then [] else '.' :: List.replicate digits '0')
  | .Float disp => floatFormat disp digits

/-- Cell::digits_len: for a float, the byte length of the rendering after
    its first dot (the source computes s.len() - (pos + 1) with pos the
    byte index of the first dot); 0 otherwise. -/
def digits_len : Cell → Nat
  | .Float disp =>
    match (splitAtDot disp).2 with
    | some frac => utf8Len frac
    | none => 0
  | _ => 0

end Cell

/-- A border line descriptor. -/
structure Line where
  begin : RStr
  hline : RStr
  sep : RStr
  end_ : RStr
deriving DecidableEq

/-- Line::new. -/
def Line.new (b h s e : String) : Line := ⟨b.data, h.data, s.data, e.data⟩

/-- A data row descriptor. -/
structure DataRow where
  begin : RStr
  sep : RStr
  end_ : RStr
deriving DecidableEq

/-- DataRow::new. -/
def DataRow.new (b s e : String) : DataRow := ⟨b.data, s.data, e.data⟩

/-- The style specification consumed by the renderer. -/
structure TableFormat where
  lineabove : Option Line
  linebelowheader : Option Line
  linebetweenrows : Option Line
  linebelow : Option Line
  headerrow : DataRow
  datarow : DataRow
  padding : Nat
  hidelineaboveifheader : Bool
  hidelinebelowifheader : Bool

/-- Style::to_format: the static border catalog. -/
def Style.to_format (style : Style) : TableFormat :=
  let basicrow := DataRow.new "" "  " ""
  let emptyformat : TableFormat :=
    { lineabove := none, linebelowheader := none, linebetweenrows := none,
      linebelow := none, headerrow := basicrow, datarow := basicrow,
      padding := 0, hidelineaboveifheader := false, hidelinebelowifheader := false }
  let basicline := Line.new "" "-" "  " ""
  let piperow := DataRow.new "| " " | " " |"
  let single_line := Line.new "" "─" "─┼─" ""
  let single_line_with_ends := Line.new "├─" "─" "─┼─" "─┤"
  let row_line := DataRow.new "" " │ " ""
  let row_line_with_ends := DataRow.new "│ " " │ " " │"
  match style with
  | .Plain => emptyformat
  | .Simple =>
    { emptyformat with
      lineabove := some basicline, linebelowheader := some basicline,
      linebelow := some basicline,
      hidelineaboveifheader := true, hidelinebelowifheader := true }
  | .Github =>
    let line := Line.new "|-" "-" "-|-" "-|"
    { emptyformat with
      lineabove := some line, linebelowheader := some line,
      headerrow := piperow, datarow := piperow, padding := 1,
      hidelineaboveifheader := true }
  | .Grid =>
    let line := Line.new "+-" "-" "-+-" "-+"
    { emptyformat with
      lineabove := some line, linebelowheader := some (Line.new "+=" "=" "=+=" "=+"),
      linebetweenrows := some line, linebelow := some line,
      headerrow := piperow, datarow := piperow, padding := 1 }
  | .Fancy =>
    { emptyformat with
      lineabove := some (Line.new "╒═" "═" "═╤═" "═╕"),
      linebelowheader := some (Line.new "╞═" "═" "═╪═" "═╡"),
      linebetweenrows := some single_line_with_ends,
      linebelow := some (Line.new "╘═" "═" "═╧═" "═╛"),
      headerrow := row_line_with_ends, datarow := row_line_with_ends, padding := 1 }
  | .Presto =>
    let row := DataRow.new " " " | " " "
    { emptyformat with
      linebelowheader := some (Line.new "-" "-" "-+-" "-"),
      headerrow := row, datarow := row, padding := 1 }
  | .FancyGithub =>
    { emptyformat with
      linebelowheader := some single_line_with_ends,
      headerrow := row_line_with_ends, datarow := row_line_with_ends, padding := 1 }
  | .FancyPresto =>
    { emptyformat with
      linebelowheader := some single_line,
      headerrow := row_line, datarow := row_line, padding := 1 }

/-- Style::from in style.rs: style lookup by name. -/
def Style.fromStr (s : String) : Option Style :=
  if s = "plain" then some .Plain
  else if s = "simple" then some .Simple
  else if s = "github" then some .Github
  else if s = "grid" then some .Grid
  else if s = "fancy" then some .Fancy
  else if s = "presto" then some .Presto
  else if s = "fancygithub" then some .FancyGithub
  else if s = "fancypresto" then some .FancyPresto
  else none

/-- Style resolution of the command-line front end (main.rs): an
    unrecognized name yields a recoverable error naming the value. -/
def resolveStyle (s : String) : Except String Style :=
  match Style.fromStr s with
  | some st => .ok st
  | none => .error ("Unsupported format \"" ++ s ++ "\"")

/-- fn create_line: begin, the fill repeated to each column width joined by
    the separator, then end, with trailing whitespace trimmed. -/
def create_line (line : Line) (col_width : List Nat) : RStr :=
  trimEnd (line.begin ++ sepJoin line.sep (col_width.map (fun w => repeatStr line.hline w)) ++ line.end_)

/-- The per-column closure of create_data_line: pick the alignment from the
    column spec, strip the word, shrink the width by the difference between
    the stripped byte length and its display width, justify, and put any
    invisible styling back by substitution. -/
def formatWord (word : RStr) (width0 : Nat) (spec : Bool × Nat) (num_align str_align : Align) : RStr :=
  let align := if spec.1 then num_align else str_align
  let stripped := strip word
  let width := width0 - (utf8Len stripped - strWidth stripped)
  let formatted :=
    match align with
    | .Right => justRight stripped width
    | .Left => justLeft stripped width
    | .Center => justCenter stripped width
    | .Decimal => decimalJustify stripped width
  if stripped = word then formatted else replaceAll formatted stripped word

/-- fn create_data_line. -/
def create_data_line (row : DataRow) (col_nb : Nat) (col_width : List Nat)
    (col_spec : List (Bool × Nat)) (num_align str_align : Align)
    (content : List RStr) : RStr :=
  trimEnd (row.begin ++
    sepJoin row.sep ((List.range col_nb).map (fun col =>
      formatWord ((content.get? col).getD []) (col_width.getD col 0)
        (col_spec.getD col (false, 0)) num_align str_align)) ++
    row.end_)

/-- One iteration step of the line_to_multi loop, fuel-driven for structural
    recursion (the fuel passed by line_to_multi always suffices: every
    iteration consumes one newline). -/
def ltmLoop : Nat → List RStr → List (List RStr)
  | 0, _ => []
  | fuel + 1, line =>
    let cur := line.map (fun c => (splitCell c).1)
    let rest := line.map (fun c => ((splitCell c).2).getD [])
    if rest.all List.isEmpty then [cur] else cur :: ltmLoop fuel rest

/-- fn line_to_multi: expand one row of strings into physical lines. -/
def line_to_multi (line : List RStr) : List (List RStr) :=
  if line.any (fun s => s.contains '\n') then
    ltmLoop ((line.map List.length).sum + 1) line
  else [line]

/-- The column count: max of the header length and the longest row. -/
def colNb (contents : List (List Cell)) (headers : List RStr) : Nat :=
  max headers.length (maxNat (contents.map List.length))

/-- The per-column accumulation of the col_spec loop: all starts true and is
    cleared by any present non-numeric cell; max accumulates digits_len over
    present numeric cells. -/
def colSpecFold (contents : List (List Cell)) (col : Nat) (all : Bool) (m : Nat) : Bool × Nat :=
  match contents with
  | [] => (all, m)
  | row :: rest =>
    match row.get? col with
    | some c =>
      if c.is_a_number then colSpecFold rest col all (max m c.digits_len)
      else colSpecFold rest col false m
    | none => colSpecFold rest col all m

/-- The column spec of one column as computed in tabulate_with_align. -/
def colSpecAt (contents : List (List Cell)) (col : Nat) : Bool × Nat :=
  colSpecFold contents col true 0

/-- The width contributed by one cell: in an all-numeric column under
    decimal alignment with a positive digit count, the byte length of the
    fixed-precision rendering; otherwise the display width of the widest
    embedded line of the stripped natural rendering. -/
def cellMeasuredWidth (spec : Bool × Nat) (num_align : Align) (c : Cell) : Nat :=
  if spec.1 = true ∧ num_align = Align.Decimal ∧ 0 < spec.2 then
    utf8Len (c.to_str_with_digits spec.2)
  else
    maxNat ((splitNl c.to_str).map (fun l => strWidth (strip l)))

/-- The running maximum of the col_width loop over the rows. -/
def colWidthFold (contents : List (List Cell)) (spec : Bool × Nat) (num_align : Align)
    (col : Nat) (acc : Nat) : Nat :=
  match contents with
  | [] => acc
  | row :: rest =>
    match row.get? col with
    | some c => colWidthFold rest spec num_align col (max (cellMeasuredWidth spec num_align c) acc)
    | none => colWidthFold rest spec num_align col acc

/-- The width of one column: start from the widest stripped header line plus
    MIN_PADDING when a header exists, then take the maximum over the rows. -/
def colWidthAt (contents : List (List Cell)) (headers : List RStr) (num_align : Align)
    (col : Nat) : Nat :=
  colWidthFold contents (colSpecAt contents col) num_align col
    (match headers.get? col with
     | some h => maxNat ((splitNl h).map (fun l => strWidth (strip l))) + MIN_PADDING
     | none => 0)

/-- The column spec list. -/
def colSpecList (contents : List (List Cell)) (headers : List RStr) : List (Bool × Nat) :=
  (List.range (colNb contents headers)).map (colSpecAt contents)

/-- The column width list. -/
def colWidthList (contents : List (List Cell)) (headers : List RStr) (num_align : Align) : List Nat :=
  (List.range (colNb contents headers)).map (colWidthAt contents headers num_align)

/-- The stringified cells of one content row, each at the fixed precision of
    its column. -/
def rowStrings (col_spec : List (Bool × Nat)) (row : List Cell) : List RStr :=
  row.enum.map (fun ic => (ic.2).to_str_with_digits ((col_spec.getD ic.1 (false, 0)).2))

/-- Zero or one border line from an optional descriptor. -/
def optLine (o : Option Line) (col_width : List Nat) : List RStr :=
  match o with
  | some l => [create_line l col_width]
  | none => []

/-- The data lines of one (header or content) row: one create_data_line per
    physical line. -/
def rowBlock (dr : DataRow) (col_nb : Nat) (col_width : List Nat) (col_spec : List (Bool × Nat))
    (num_align str_align : Align) (cells : List RStr) : List RStr :=
  (line_to_multi cells).map
    (fun cl => create_data_line dr col_nb col_width col_spec num_align str_align cl)

/-- The lines of the content loop: each row after the first is preceded by
    the between-rows line when the style has one.  The source loop tests
    the row index against zero, which is modelled by special-casing the
    first row. -/
def contentBlock (fmt : TableFormat) (col_nb : Nat) (col_width : List Nat)
    (col_spec : List (Bool × Nat)) (num_align str_align : Align) :
    List (List Cell) → List RStr
  | [] => []
  | r :: rs =>
    rowBlock fmt.datarow col_nb col_width col_spec num_align str_align (rowStrings col_spec r)
    ++ (rs.map (fun row =>
          optLine fmt.linebetweenrows col_width
          ++ rowBlock fmt.datarow col_nb col_width col_spec num_align str_align
               (rowStrings col_spec row))).flatten

/-- The list of output lines built by tabulate_with_align, in order:
    line above, header block, content rows with separators, line below. -/
def tabulateLines (style : Style) (contents : List (List Cell)) (headers : List RStr)
    (str_align num_align : Align) : List RStr :=
  let fmt := style.to_format
  let col_nb := colNb contents headers
  let col_spec := colSpecList contents headers
  let col_width := colWidthList contents headers num_align
  let hasheader := !headers.isEmpty
  (if hasheader && fmt.hidelineaboveifheader then [] else optLine fmt.lineabove col_width)
  ++ (if hasheader then
        rowBlock fmt.headerrow col_nb col_width col_spec num_align str_align headers
        ++ optLine fmt.linebelowheader col_width
      else [])
  ++ contentBlock fmt col_nb col_width col_spec num_align str_align contents
  ++ (if hasheader && fmt.hidelinebelowifheader then [] else optLine fmt.linebelow col_width)

/-- The rendered table: all lines joined with a single newline. -/
def tabulateCore (style : Style) (contents : List (List Cell)) (headers : List RStr)
    (str_align num_align : Align) : RStr :=
  joinNl (tabulateLines style contents headers str_align num_align)

/-- pub fn tabulate_with_align; the panic on a decimal string alignment is
    modelled as an error value. -/
def tabulate_with_align (style : Style) (contents : List (List Cell)) (headers : List RStr)
    (str_align num_align : Align) : Except RStr RStr :=
  if str_align = Align.Decimal then
    .error ("str_align should not be set to Decimal, only num_align can").data
  else
    .ok (tabulateCore style contents headers str_align num_align)

/-- pub fn tabulate: default alignment, left for strings and decimal for
    numbers. -/
def tabulate (style : Style) (contents : List (List Cell)) (headers : List RStr) : Except RStr RStr :=
  tabulate_with_align style contents headers Align.Left Align.Decimal

/-! Claim theorems. -/

/-- C1: rendering the grid spam / 41.9999, eggs / 451 with headers strings,
    numbers, style fancy and default alignment returns exactly the
    seven-line fancy table, with the numbers right-aligned on the decimal
    point and the implied trailing zeros of the Integer blanked to
    spaces. -/
theorem fancy_default_render_exact :
    tabulate Style.Fancy
      [[Cell.Text ("spam").data, Cell.Float ("41.9999").data],
       [Cell.Text ("eggs").data, Cell.Int 451]]
      [("strings").data, ("numbers").data]
    = Except.ok ("╒═══════════╤═══════════╕\n│ strings   │   numbers │\n╞═══════════╪═══════════╡\n│ spam      │   41.9999 │\n├───────────┼───────────┤\n│ eggs      │  451      │\n╘═══════════╧═══════════╛").data := by
  decide

/-- C2: for every style, grid and header list, tabulate_with_align with a
    decimal string alignment fails fatally producing no output, and with
    any other string alignment it passes that check. -/
theorem str_align_decimal_is_fatal (style : Style) (contents : List (List Cell))
    (headers : List RStr) (num_align str_align : Align) :
    (tabulate_with_align style contents headers Align.Decimal num_align).isOk = false
    ∧ (str_align ≠ Align.Decimal →
        (tabulate_with_align style contents headers str_align num_align).isOk = true) := by
  constructor
  · rfl
  · intro h
    simp only [tabulate_with_align, if_neg h]
    rfl

/-- C2 witness at a concrete instance. -/
theorem str_align_decimal_is_fatal_witness :
    (tabulate_with_align Style.Plain [] [] Align.Decimal Align.Left).isOk = false
    ∧ (tabulate_with_align Style.Plain [] [] Align.Left Align.Left).isOk = true :=
  ⟨(str_align_decimal_is_fatal Style.Plain [] [] Align.Left Align.Left).1,
   (str_align_decimal_is_fatal Style.Plain [] [] Align.Left Align.Left).2 (by decide)⟩

/-- C10: the default-alignment entry point returns exactly what
    tabulate_with_align returns at Left string alignment and Decimal
    numeric alignment, and always succeeds. -/
theorem tabulate_defaults_left_decimal (style : Style) (contents : List (List Cell))
    (headers : List RStr) :
    tabulate style contents headers
      = tabulate_with_align style contents headers Align.Left Align.Decimal
    ∧ (tabulate style contents headers).isOk = true := by
  exact ⟨rfl, rfl⟩

/-- The eight recognized style names. -/
def styleNames : List String :=
  ["plain", "simple", "github", "grid", "fancy", "presto", "fancygithub", "fancypresto"]

/-- C8: style lookup by name succeeds exactly on the eight lower-case names,
    mapping each to its style, and any other string yields none from the
    library lookup and, in the command-line front end, a recoverable error
    naming the unsupported value. -/
theorem style_lookup_exact (s : String) :
    (Style.fromStr "plain" = some Style.Plain
     ∧ Style.fromStr "simple" = some Style.Simple
     ∧ Style.fromStr "github" = some Style.Github
     ∧ Style.fromStr "grid" = some Style.Grid
     ∧ Style.fromStr "fancy" = some Style.Fancy
     ∧ Style.fromStr "presto" = some Style.Presto
     ∧ Style.fromStr "fancygithub" = some Style.FancyGithub
     ∧ Style.fromStr "fancypresto" = some Style.FancyPresto)
    ∧ (s ∉ styleNames →
        Style.fromStr s = none
        ∧ resolveStyle s = Except.error ("Unsupported format \"" ++ s ++ "\"")) := by
  refine ⟨by decide, ?_⟩
  intro hs
  simp only [styleNames, List.mem_cons, List.mem_singleton, not_or] at hs
  obtain ⟨h1, h2, h3, h4, h5, h6, h7, h8, -⟩ := hs
  have hnone : Style.fromStr s = none := by
    simp [Style.fromStr, h1, h2, h3, h4, h5, h6, h7, h8]
  exact ⟨hnone, by simp [resolveStyle, hnone]⟩

/-- C8 witness at concrete inputs. -/
theorem style_lookup_exact_witness :
    Style.fromStr "fancy" = some Style.Fancy
    ∧ Style.fromStr "Fancy" = none
    ∧ resolveStyle "Fancy" = Except.error ("Unsupported format \"Fancy\"") :=
  ⟨(style_lookup_exact "Fancy").1.2.2.2.2.1,
   ((style_lookup_exact "Fancy").2 (by decide)).1,
   ((style_lookup_exact "Fancy").2 (by decide)).2⟩


theorem splitAtDot_no_dot {s : RStr} (h : '.' ∉ s) : splitAtDot s = (s, none) := by
  induction s with
  | nil => rfl
  | cons c rest ih =>
    have hc : c ≠ '.' := fun hc => h (hc ▸ List.mem_cons_self c rest)
    have hr : '.' ∉ rest := fun hr => h (List.mem_cons_of_mem c hr)
    simp [splitAtDot, hc, ih hr]

theorem splitAtDot_append {a : RStr} (b : RStr) (h : '.' ∉ a) :
    splitAtDot (a ++ '.' :: b) = (a, some b) := by
  induction a with
  | nil => simp [splitAtDot]
  | cons c rest ih =>
    have hc : c ≠ '.' := fun hc => h (hc ▸ List.mem_cons_self c rest)
    have hr : '.' ∉ rest := fun hr => h (List.mem_cons_of_mem c hr)
    simp [splitAtDot, hc, ih hr]

theorem utf8Size_of_ascii {c : Char} (h : c.toNat ≤ 127) : c.utf8Size = 1 := by
  have hv : c.val ≤ 0x7F := h
  simp [Char.utf8Size, hv]

theorem utf8Len_of_ascii {b : RStr} (h : ∀ c ∈ b, c.toNat ≤ 127) : utf8Len b = b.length := by
  induction b with
  | nil => rfl
  | cons c rest ih =>
    have h1 := utf8Size_of_ascii (h c (List.mem_cons_self c rest))
    have h2 := ih (fun x hx => h x (List.mem_cons_of_mem c hx))
    simp [utf8Len] at h2 ⊢
    omega

/-- C9: digits_len returns, for a Float cell, the count of characters after
    the decimal point of its default rendering (which are its fraction
    digits, all ASCII), 0 when the rendering has no dot, and 0 for every
    Integer and Text cell. -/
theorem digits_len_counts_fraction_digits (a b s : RStr) (i : Int) :
    ('.' ∉ a → (∀ c ∈ b, c.toNat ≤ 127) →
      Cell.digits_len (Cell.Float (a ++ '.' :: b)) = b.length)
    ∧ ('.' ∉ s → Cell.digits_len (Cell.Float s) = 0)
    ∧ Cell.digits_len (Cell.Int i) = 0
    ∧ Cell.digits_len (Cell.Text s) = 0 := by
  refine ⟨?_, ?_, rfl, rfl⟩
  · intro ha hb
    simp [Cell.digits_len, splitAtDot_append b ha, utf8Len_of_ascii hb]
  · intro hs
    simp [Cell.digits_len, splitAtDot_no_dot hs]

/-- C9 witness at the rendering of 41.9999. -/
theorem digits_len_counts_fraction_digits_witness :
    Cell.digits_len (Cell.Float (("41").data ++ '.' :: ("9999").data)) = (("9999").data).length
    ∧ Cell.digits_len (Cell.Float ("42").data) = 0 :=
  ⟨(digits_len_counts_fraction_digits ("41").data ("9999").data [] 0).1 (by decide) (by decide),
   (digits_len_counts_fraction_digits [] [] ("42").data 0).2.1 (by decide)⟩


theorem rfindDot_of_no_dot {s : RStr} (h : '.' ∉ s) : rfindDot s = none := by
  induction s with
  | nil => rfl
  | cons c rest ih =>
    have hc : c ≠ '.' := fun hc => h (hc ▸ List.mem_cons_self c rest)
    have hr : '.' ∉ rest := fun hr => h (List.mem_cons_of_mem c hr)
    simp [rfindDot, ih hr, hc]

theorem rfindDot_append_cons {zs : RStr} (a : RStr) (h : '.' ∉ zs) :
    rfindDot (a ++ '.' :: zs) = some a.length := by
  induction a with
  | nil => simp [rfindDot, rfindDot_of_no_dot h]
  | cons c rest ih => simp [rfindDot, ih]

/-- C7: under decimal alignment a fragment is first right-justified within
    the column width; then the suffix from the rightmost dot onward is
    replaced by as many spaces exactly when every character after that dot
    is the zero digit; fragments without a dot, or with a character other
    than the zero digit after the rightmost dot, are left plainly
    right-justified. -/
theorem decimal_align_blanks_zero_tail (s : RStr) (w : Nat) (a zs : RStr) :
    (justRight s w = a ++ '.' :: zs → '.' ∉ zs →
      ((∀ c ∈ zs, c = '0') →
         decimalJustify s w = a ++ List.replicate (zs.length + 1) ' ')
      ∧ ((∃ c ∈ zs, c ≠ '0') → decimalJustify s w = justRight s w))
    ∧ ('.' ∉ justRight s w → decimalJustify s w = justRight s w) := by
  constructor
  · intro hout hzs
    have hfind : rfindDot (justRight s w) = some a.length := by
      rw [hout]; exact rfindDot_append_cons a hzs
    have hdrop : (justRight s w).drop (a.length + 1) = zs := by
      rw [hout]
      have : a ++ '.' :: zs = (a ++ ['.']) ++ zs := by simp
      rw [this, List.drop_left']
      simp
    have htake : (justRight s w).take a.length = a := by
      rw [hout]; exact List.take_left a ('.' :: zs)
    have hlen : (justRight s w).length = a.length + zs.length + 1 := by
      rw [hout]; simp; omega
    constructor
    · intro hall
      have : ((justRight s w).drop (a.length + 1)).all (fun c => c = '0') = true := by
        rw [hdrop]
        exact List.all_eq_true.mpr (fun c hc => decide_eq_true (hall c hc))
      simp only [decimalJustify, hfind, this, if_pos, htake, hlen]
      congr 1
      congr 1
      omega
    · intro ⟨c, hc, hc0⟩
      have : ((justRight s w).drop (a.length + 1)).all (fun c => c = '0') = false := by
        rw [hdrop]
        simp only [List.all_eq_false]
        exact ⟨c, hc, by simpa using hc0⟩
      simp [decimalJustify, hfind, this]
  · intro h
    simp [decimalJustify, rfindDot_of_no_dot h]

/-- C7 witness: the integer 451 rendered at the fancy precision, justified
    in a width-9 numeric column, has its zero tail blanked. -/
theorem decimal_align_blanks_zero_tail_witness :
    decimalJustify ("451.0000").data 9 = (" 451").data ++ List.replicate ((("0000").data).length + 1) ' '
    ∧ decimalJustify ("41.9999").data 9 = justRight ("41.9999").data 9 :=
  ⟨((decimal_align_blanks_zero_tail ("451.0000").data 9 (" 451").data ("0000").data).1
      (by decide) (by decide)).1 (by decide),
   ((decimal_align_blanks_zero_tail ("41.9999").data 9 ("  41").data ("9999").data).1
      (by decide) (by decide)).2 ⟨'9', by decide, by decide⟩⟩


/-- The cells actually present in one column, top to bottom. -/
def colCells (contents : List (List Cell)) (col : Nat) : List Cell :=
  contents.filterMap (fun row => row.get? col)

theorem colSpecFold_eq (contents : List (List Cell)) (col : Nat) (all : Bool) (m : Nat) :
    colSpecFold contents col all m
      = (all && (colCells contents col).all Cell.is_a_number,
         max m (maxNat (((colCells contents col).filter Cell.is_a_number).map Cell.digits_len))) := by
  induction contents generalizing all m with
  | nil => simp [colSpecFold, colCells, maxNat]
  | cons row rest ih =>
    cases hg : row.get? col with
    | none =>
      simp only [colSpecFold, hg, colCells, List.filterMap_cons, ih]
    | some c =>
      cases hn : c.is_a_number with
      | true =>
        simp only [colSpecFold, hg, hn, if_pos, colCells, List.filterMap_cons, ih,
          List.all_cons, List.filter_cons, List.map_cons, maxNat, Prod.mk.injEq]
        exact ⟨by simp [hn], by omega⟩
      | false =>
        simp only [colSpecFold, hg, hn, colCells, List.filterMap_cons, ih,
          List.all_cons, List.filter_cons, List.map_cons, maxNat, Prod.mk.injEq,
          Bool.false_and, Bool.and_false]
        simp

/-- C5 counterexample: the second column of a one-cell table has zero cells
    present, yet its computed spec is numeric (all flag true), not the
    non-numeric default the claim states. -/
theorem colspec_empty_column_counterexample :
    colCells [[Cell.Text ("a").data]] 1 = []
    ∧ colSpecAt [[Cell.Text ("a").data]] 1 ≠ (false, 0) := by
  decide

/-- C5 amended: the per-column spec has the all-numeric flag true exactly
    when every cell present in the column is numeric (a present non-numeric
    cell clears it, an absent cell does not), the digit count equal to the
    maximum fraction digit count over the present numeric cells, and a
    column with zero cells present defaults to numeric with zero fraction
    digits. -/
theorem colspec_characterization (contents : List (List Cell)) (col : Nat) :
    colSpecAt contents col
      = ((colCells contents col).all Cell.is_a_number,
         maxNat (((colCells contents col).filter Cell.is_a_number).map Cell.digits_len))
    ∧ (colCells contents col = [] → colSpecAt contents col = (true, 0)) := by
  have h := colSpecFold_eq contents col true 0
  constructor
  · simpa using h
  · intro he
    rw [colSpecAt, h, he]
    rfl


/-- Unstyle::nb_of_lines in unstyle.rs: the newline count plus one. -/
def nb_of_lines (s : RStr) : Nat := s.count '\n' + 1

/-- The number of physical lines one cell value actually produces: its
    nb_of_lines, minus one when the value ends in a newline (the loop drops
    a single trailing empty segment), never below one. -/
def effLines (s : RStr) : Nat :=
  if s.getLast? = some '\n' then nb_of_lines s - 1 else nb_of_lines s

/-- Physical line i of a row: per column, the i-th newline-delimited
    segment of the cell value, or the empty string when the cell has fewer
    segments. -/
def physLineAt (row : List RStr) (i : Nat) : List RStr :=
  row.map (fun s => ((splitNl s).get? i).getD [])

/-- The remainder a cell value passes to the next loop iteration. -/
def restOf (s : RStr) : RStr := ((splitCell s).2).getD []

theorem splitCell_no_nl {s : RStr} (h : '\n' ∉ s) : splitCell s = (s, none) := by
  induction s with
  | nil => rfl
  | cons c rest ih =>
    have hc : c ≠ '\n' := fun hc => h (hc ▸ List.mem_cons_self c rest)
    have hr : '\n' ∉ rest := fun hr => h (List.mem_cons_of_mem c hr)
    simp [splitCell, hc, ih hr]

theorem splitCell_snd_none_no_nl : ∀ {s : RStr}, (splitCell s).2 = none → '\n' ∉ s := by
  intro s
  induction s with
  | nil => intro _ h; exact absurd h (List.not_mem_nil '\n')
  | cons c rest ih =>
    by_cases hc : c = '\n'
    · subst hc; simp [splitCell]
    · intro h
      simp only [splitCell, if_neg hc] at h
      intro hm
      rcases List.mem_cons.mp hm with h1 | h2
      · exact hc h1.symm
      · exact ih h h2

theorem splitCell_snd_some : ∀ {s r : RStr}, (splitCell s).2 = some r →
    s = (splitCell s).1 ++ '\n' :: r ∧ '\n' ∉ (splitCell s).1 := by
  intro s
  induction s with
  | nil => intro r h; exact absurd h (by simp [splitCell])
  | cons c rest ih =>
    intro r h
    by_cases hc : c = '\n'
    · subst hc
      simp only [splitCell, if_pos rfl] at h ⊢
      obtain rfl : rest = r := by simpa using h
      exact ⟨rfl, List.not_mem_nil _⟩
    · simp only [splitCell, if_neg hc] at h ⊢
      obtain ⟨h1, h2⟩ := ih h
      constructor
      · rw [List.cons_append, ← h1]
      · intro hm
        rcases List.mem_cons.mp hm with hx | hx
        · exact hc hx.symm
        · exact h2 hx

theorem splitNl_eq_splitCell (s : RStr) :
    splitNl s = (splitCell s).1 ::
      (match (splitCell s).2 with
       | some r => splitNl r
       | none => []) := by
  induction s with
  | nil => rfl
  | cons c rest ih =>
    by_cases hc : c = '\n'
    · subst hc; simp [splitNl, splitCell]
    · simp only [splitNl, if_neg hc, splitCell, ih]

theorem effLines_of_no_nl {s : RStr} (h : '\n' ∉ s) : effLines s = 1 := by
  have hcnt : s.count '\n' = 0 := List.count_eq_zero.mpr h
  have hlast : s.getLast? ≠ some '\n' := by
    intro hl
    exact h (List.mem_of_mem_getLast? hl)
  simp [effLines, hlast, nb_of_lines, hcnt]

theorem one_le_effLines (s : RStr) : 1 ≤ effLines s := by
  by_cases hlast : s.getLast? = some '\n'
  · have hm : '\n' ∈ s := List.mem_of_mem_getLast? hlast
    have h1 : 0 < s.count '\n' := List.count_pos_iff.mpr hm
    simp only [effLines, hlast, if_pos, nb_of_lines]
    omega
  · simp only [effLines, if_neg hlast, nb_of_lines]
    omega

theorem effLines_restOf (s : RStr) : effLines (restOf s) = max 1 (effLines s - 1) := by
  cases hsc : (splitCell s).2 with
  | none =>
    have h1 : effLines s = 1 := effLines_of_no_nl (splitCell_snd_none_no_nl hsc)
    have hro : restOf s = [] := by simp [restOf, hsc]
    rw [hro, h1]
    decide
  | some r =>
    obtain ⟨hp2, hp3⟩ := splitCell_snd_some hsc
    have hro : restOf s = r := by simp [restOf, hsc]
    have hcnt : s.count '\n' = r.count '\n' + 1 := by
      rw [hp2]
      simp [List.count_append, List.count_cons, List.count_eq_zero.mpr hp3]
    cases r with
    | nil =>
      have hlast : s.getLast? = some '\n' := by
        rw [hp2]
        have he : (splitCell s).1 ++ '\n' :: ([] : RStr) = (splitCell s).1 ++ ['\n'] := rfl
        rw [he, List.getLast?_concat]
      have hes : effLines s = 1 := by
        simp [effLines, hlast, nb_of_lines, hcnt]
      rw [hro, hes]
      decide
    | cons c rs =>
      have hlast : s.getLast? = (c :: rs).getLast? := by
        rw [hp2, List.getLast?_append_of_ne_nil _ (List.cons_ne_nil '\n' (c :: rs)),
          List.getLast?_cons_cons]
      rw [hro]
      by_cases hre : (c :: rs).getLast? = some '\n'
      · have hcr : 0 < (c :: rs).count '\n' :=
          List.count_pos_iff.mpr (List.mem_of_mem_getLast? hre)
        simp only [effLines, hlast, nb_of_lines, hcnt, if_pos hre]
        omega
      · simp only [effLines, hlast, nb_of_lines, hcnt, if_neg hre]
        omega

theorem effLines_eq_one_of_restOf_nil {s : RStr} (h : restOf s = []) : effLines s = 1 := by
  cases hsc : (splitCell s).2 with
  | none => exact effLines_of_no_nl (splitCell_snd_none_no_nl hsc)
  | some r =>
    have hro : restOf s = r := by simp [restOf, hsc]
    obtain rfl : r = [] := by rw [hro] at h; exact h
    obtain ⟨hp2, hp3⟩ := splitCell_snd_some hsc
    have hcnt : s.count '\n' = 1 := by
      rw [hp2]
      simp [List.count_append, List.count_cons, List.count_eq_zero.mpr hp3]
    have hlast : s.getLast? = some '\n' := by
      rw [hp2]
      have he : (splitCell s).1 ++ '\n' :: ([] : RStr) = (splitCell s).1 ++ ['\n'] := rfl
      rw [he, List.getLast?_concat]
    simp [effLines, hlast, nb_of_lines, hcnt]

theorem two_le_effLines_of_restOf_ne_nil {s : RStr} (h : restOf s ≠ []) : 2 ≤ effLines s := by
  cases hsc : (splitCell s).2 with
  | none => exact absurd (by simp [restOf, hsc]) h
  | some r =>
    obtain ⟨hp2, hp3⟩ := splitCell_snd_some hsc
    have hro : restOf s = r := by simp [restOf, hsc]
    have hcnt : s.count '\n' = r.count '\n' + 1 := by
      rw [hp2]
      simp [List.count_append, List.count_cons, List.count_eq_zero.mpr hp3]
    cases r with
    | nil => exact absurd hro h
    | cons c rs =>
      have hlast : s.getLast? = (c :: rs).getLast? := by
        rw [hp2, List.getLast?_append_of_ne_nil _ (List.cons_ne_nil '\n' (c :: rs)),
          List.getLast?_cons_cons]
      by_cases hre : (c :: rs).getLast? = some '\n'
      · have hcr : 0 < (c :: rs).count '\n' :=
          List.count_pos_iff.mpr (List.mem_of_mem_getLast? hre)
        simp only [effLines, hlast, nb_of_lines, hcnt, if_pos hre]
        omega
      · simp only [effLines, hlast, nb_of_lines, hcnt, if_neg hre]
        omega


/-- The physical line count of a row: at least one line, and the maximum
    effective line count over the cells. -/
def rowPhysCount (row : List RStr) : Nat := max 1 (maxNat (row.map effLines))

theorem le_maxNat_of_mem {l : List Nat} {x : Nat} (h : x ∈ l) : x ≤ maxNat l := by
  induction l with
  | nil => cases h
  | cons y ys ih =>
    rcases List.mem_cons.mp h with rfl | h2
    · simp only [maxNat]; omega
    · have := ih h2; simp only [maxNat]; omega

theorem maxNat_le {l : List Nat} {n : Nat} (h : ∀ x ∈ l, x ≤ n) : maxNat l ≤ n := by
  induction l with
  | nil => simp [maxNat]
  | cons y ys ih =>
    have h1 := h y (List.mem_cons_self y ys)
    have h2 := ih (fun x hx => h x (List.mem_cons_of_mem y hx))
    simp only [maxNat]
    omega

theorem maxNat_map_shift : ∀ (l : List Nat), l ≠ [] →
    maxNat (l.map (fun e => max 1 (e - 1))) = max 1 (maxNat l - 1)
  | [], h => absurd rfl h
  | [e], _ => by
    simp only [List.map_cons, List.map_nil, maxNat]
    omega
  | e :: f :: l, _ => by
    have ih := maxNat_map_shift (f :: l) (List.cons_ne_nil f l)
    simp only [List.map_cons, maxNat] at ih ⊢
    omega

theorem splitNl_get_zero (s : RStr) : ((splitNl s).get? 0).getD [] = (splitCell s).1 := by
  rw [splitNl_eq_splitCell]
  rfl

theorem splitNl_no_nl {s : RStr} (h : '\n' ∉ s) : splitNl s = [s] := by
  rw [splitNl_eq_splitCell, splitCell_no_nl h]

theorem splitNl_get_succ (s : RStr) (i : Nat) :
    ((splitNl s).get? (i + 1)).getD [] = ((splitNl (restOf s)).get? i).getD [] := by
  cases hsc : (splitCell s).2 with
  | none =>
    have hro : restOf s = [] := by simp [restOf, hsc]
    rw [splitNl_eq_splitCell s, hro]
    simp only [hsc]
    cases i <;> simp [splitNl]
  | some r =>
    have hro : restOf s = r := by simp [restOf, hsc]
    rw [splitNl_eq_splitCell s, hro]
    simp only [hsc]
    rfl

theorem physLineAt_zero (line : List RStr) :
    physLineAt line 0 = line.map (fun c => (splitCell c).1) := by
  unfold physLineAt
  exact List.map_eq_map_iff.mpr (fun s _ => splitNl_get_zero s)

theorem physLineAt_succ (line : List RStr) (i : Nat) :
    physLineAt line (i + 1) = physLineAt (line.map restOf) i := by
  unfold physLineAt
  rw [List.map_map]
  exact List.map_eq_map_iff.mpr (fun s _ => splitNl_get_succ s i)

theorem restOf_length_lt {s : RStr} (h : restOf s ≠ []) : (restOf s).length < s.length := by
  cases hsc : (splitCell s).2 with
  | none => exact absurd (by simp [restOf, hsc]) h
  | some r =>
    obtain ⟨hp2, -⟩ := splitCell_snd_some hsc
    have hro : restOf s = r := by simp [restOf, hsc]
    rw [hro]
    conv_rhs => rw [hp2]
    simp only [List.length_append, List.length_cons]
    omega

theorem restOf_length_le (s : RStr) : (restOf s).length ≤ s.length := by
  by_cases h : restOf s = []
  · simp [h]
  · exact Nat.le_of_lt (restOf_length_lt h)

theorem ltmLoop_eq : ∀ (fuel : Nat) (line : List RStr),
    (line.map List.length).sum < fuel →
    ltmLoop fuel line = (List.range (rowPhysCount line)).map (physLineAt line) := by
  intro fuel
  induction fuel with
  | zero => intro line h; omega
  | succ fuel ih =>
    intro line hf
    rw [ltmLoop]
    by_cases hall : (line.map (fun c => ((splitCell c).2).getD [])).all List.isEmpty
    · rw [if_pos hall]
      have hone : ∀ s ∈ line, effLines s = 1 := by
        intro s hs
        apply effLines_eq_one_of_restOf_nil
        have h1 := List.all_eq_true.mp hall _
          (List.mem_map_of_mem (fun c => ((splitCell c).2).getD []) hs)
        simpa [restOf, List.isEmpty_iff] using h1
      have hcount : rowPhysCount line = 1 := by
        unfold rowPhysCount
        have hle : maxNat (line.map effLines) ≤ 1 := maxNat_le (by
          intro x hx
          obtain ⟨s, hs, rfl⟩ := List.mem_map.mp hx
          exact Nat.le_of_eq (hone s hs))
        omega
      rw [hcount]
      have hmr : List.range 1 = [0] := rfl
      rw [hmr, List.map_cons, List.map_nil, physLineAt_zero]
    · rw [if_neg hall]
      have hrest : line.map (fun c => ((splitCell c).2).getD []) = line.map restOf := rfl
      obtain ⟨s0, hs0, hne⟩ : ∃ s ∈ line, restOf s ≠ [] := by
        by_contra hc
        push_neg at hc
        apply hall
        rw [List.all_eq_true]
        intro x hx
        obtain ⟨s, hs, rfl⟩ := List.mem_map.mp hx
        simpa [restOf, List.isEmpty_iff] using hc s hs
      have hsum : ((line.map restOf).map List.length).sum < (line.map List.length).sum := by
        rw [List.map_map]
        exact List.sum_lt_sum _ _ (fun s _ => restOf_length_le s) ⟨s0, hs0, restOf_length_lt hne⟩
      have hf2 : ((line.map restOf).map List.length).sum < fuel := by omega
      rw [hrest, ih _ hf2]
      have hM : 2 ≤ maxNat (line.map effLines) :=
        Nat.le_trans (two_le_effLines_of_restOf_ne_nil hne)
          (le_maxNat_of_mem (List.mem_map_of_mem effLines hs0))
      have heff : (line.map restOf).map effLines
          = (line.map effLines).map (fun e => max 1 (e - 1)) := by
        rw [List.map_map, List.map_map]
        exact List.map_eq_map_iff.mpr (fun s _ => effLines_restOf s)
      have hlne : line.map effLines ≠ [] := by
        intro hx
        rw [List.map_eq_nil_iff] at hx
        subst hx
        cases hs0
      have hcnt : rowPhysCount line = rowPhysCount (line.map restOf) + 1 := by
        unfold rowPhysCount
        rw [heff, maxNat_map_shift _ hlne]
        omega
      rw [hcnt, List.range_succ_eq_map, List.map_cons, physLineAt_zero, List.map_map]
      congr 1
      exact List.map_eq_map_iff.mpr (fun i _ => (physLineAt_succ line i).symm)

/-- The full characterization of line_to_multi. -/
theorem line_to_multi_eq (row : List RStr) :
    line_to_multi row = (List.range (rowPhysCount row)).map (physLineAt row) := by
  rw [line_to_multi]
  by_cases hany : row.any (fun s => s.contains '\n')
  · rw [if_pos hany]
    exact ltmLoop_eq _ row (Nat.lt_succ_self _)
  · rw [if_neg hany]
    have hnl : ∀ s ∈ row, '\n' ∉ s := by
      intro s hs hm
      apply hany
      rw [List.any_eq_true]
      exact ⟨s, hs, List.elem_iff.mpr hm⟩
    have hone : ∀ s ∈ row, effLines s = 1 := fun s hs => effLines_of_no_nl (hnl s hs)
    have hcount : rowPhysCount row = 1 := by
      unfold rowPhysCount
      have hle : maxNat (row.map effLines) ≤ 1 := maxNat_le (by
        intro x hx
        obtain ⟨s, hs, rfl⟩ := List.mem_map.mp hx
        exact Nat.le_of_eq (hone s hs))
      omega
    rw [hcount]
    have hmr : List.range 1 = [0] := rfl
    rw [hmr, List.map_cons, List.map_nil]
    have : physLineAt row 0 = row.map (fun s => s) := by
      unfold physLineAt
      refine List.map_eq_map_iff.mpr (fun s hs => ?_)
      rw [splitNl_no_nl (hnl s hs)]
      rfl
    rw [this, List.map_id']


/-- C6 counterexample: a row whose cell ends in a newline is split into one
    physical line, not the two that its nb_of_lines reports, because the
    loop drops the trailing empty segment. -/
theorem line_to_multi_trailing_newline_counterexample :
    ¬ ((line_to_multi [("x\n").data]).length
        = maxNat ([("x\n").data].map nb_of_lines)) := by
  decide

/-- C6 amended: splitting one row of stringified cell values yields exactly
    max(1, max over the cells of effLines) physical lines, where effLines
    is nb_of_lines reduced by one when the value ends in a newline; and
    physical line i contains, for each column, the i-th newline-delimited
    segment of that cell value, or the empty string when the cell has fewer
    segments.  In particular a three-line cell with no trailing newline
    occupies exactly three physical lines regardless of its siblings. -/
theorem line_to_multi_physical_lines (row : List RStr) :
    (line_to_multi row).length = max 1 (maxNat (row.map effLines))
    ∧ line_to_multi row
        = (List.range (max 1 (maxNat (row.map effLines)))).map (physLineAt row)
    ∧ (line_to_multi [("foo bar\nbaz\nbau").data, ("hello").data]).length = 3 := by
  refine ⟨?_, ?_, by decide⟩
  · rw [line_to_multi_eq]
    simp [rowPhysCount]
  · rw [line_to_multi_eq]
    rfl


theorem charWidth_le_utf8Size (c : Char) : charWidth c ≤ c.utf8Size := by
  have hpos : 0 < c.utf8Size := Char.utf8Size_pos c
  unfold charWidth
  split
  · omega
  · split
    · rename_i hno hw
      have hge : 0x800 ≤ c.toNat := by
        rcases hw with h|h|h|h|h|h|h|h|h|h|h|h <;> omega
      simp only [Char.utf8Size]
      split
      · rename_i hv
        have hx : c.toNat ≤ 127 := hv
        omega
      · split
        · rename_i hv
          have hx : c.toNat ≤ 2047 := hv
          omega
        · split <;> omega
    · omega

theorem length_le_utf8Len (s : RStr) : s.length ≤ utf8Len s := by
  induction s with
  | nil => simp [utf8Len]
  | cons c rest ih =>
    have := Char.utf8Size_pos c
    simp only [utf8Len, List.map_cons, List.sum_cons, List.length_cons] at ih ⊢
    omega

theorem strWidth_le_utf8Len (s : RStr) : strWidth s ≤ utf8Len s := by
  induction s with
  | nil => simp [strWidth, utf8Len]
  | cons c rest ih =>
    have := charWidth_le_utf8Size c
    simp only [strWidth, utf8Len, List.map_cons, List.sum_cons] at ih ⊢
    omega

theorem strWidth_mono {l1 l2 : RStr} (h : l1.Sublist l2) : strWidth l1 ≤ strWidth l2 :=
  (h.map charWidth).sum_le_sum (by intro x hx; omega)

theorem utf8Len_mono {l1 l2 : RStr} (h : l1.Sublist l2) : utf8Len l1 ≤ utf8Len l2 :=
  (h.map Char.utf8Size).sum_le_sum (by intro x hx; omega)

theorem stripGo_sublist (s : RStr) : ∀ (mode : StripMode), (stripGo mode s).Sublist s := by
  induction s with
  | nil => intro mode; cases mode <;> simp [stripGo]
  | cons c rest ih =>
    intro mode
    cases mode with
    | norm =>
      by_cases hc : c = '\x1b'
      · simp only [stripGo, if_pos hc]
        exact (ih .sawEsc).cons c
      · simp only [stripGo, if_neg hc]
        exact (ih .norm).cons₂ c
    | sawEsc =>
      by_cases hc : c = '['
      · simp only [stripGo, if_pos hc]
        exact (ih .inCsi).cons c
      · simp only [stripGo, if_neg hc]
        exact (ih .norm).cons c
    | inCsi =>
      by_cases hc : 0x40 ≤ c.toNat ∧ c.toNat ≤ 0x7E
      · simp only [stripGo, if_pos hc]
        exact (ih .norm).cons c
      · simp only [stripGo, if_neg hc]
        exact (ih .inCsi).cons c

theorem strip_sublist (s : RStr) : (strip s).Sublist s := stripGo_sublist s .norm

theorem splitNl_mem_sublist : ∀ {s t : RStr}, t ∈ splitNl s → t.Sublist s := by
  intro s
  induction s with
  | nil =>
    intro t ht
    simp only [splitNl, List.mem_singleton] at ht
    subst ht
    exact List.nil_sublist []
  | cons c rest ih =>
    intro t ht
    by_cases hc : c = '\n'
    · subst hc
      simp only [splitNl, if_pos rfl] at ht
      rcases List.mem_cons.mp ht with rfl | h2
      · exact List.nil_sublist _
      · exact (ih h2).cons '\n'
    · simp only [splitNl, if_neg hc] at ht
      cases hsp : splitNl rest with
      | nil =>
        rw [hsp] at ht
        simp only [List.mem_singleton] at ht
        subst ht
        exact (List.nil_sublist rest).cons₂ c
      | cons l ls =>
        rw [hsp] at ht
        rcases List.mem_cons.mp ht with rfl | h2
        · have hm : l ∈ splitNl rest := hsp ▸ List.mem_cons_self l ls
          exact (ih hm).cons₂ c
        · have hm : t ∈ splitNl rest := hsp ▸ List.mem_cons_of_mem l h2
          exact (ih hm).cons c

theorem splitAtDot_none_eq {s : RStr} (h : (splitAtDot s).2 = none) : (splitAtDot s).1 = s := by
  induction s with
  | nil => rfl
  | cons c rest ih =>
    by_cases hc : c = '.'
    · subst hc; simp [splitAtDot] at h
    · simp only [splitAtDot, if_neg hc] at h ⊢
      rw [ih h]

theorem splitAtDot_some_eq : ∀ {s f : RStr}, (splitAtDot s).2 = some f →
    s = (splitAtDot s).1 ++ '.' :: f := by
  intro s
  induction s with
  | nil => intro f h; simp [splitAtDot] at h
  | cons c rest ih =>
    intro f h
    by_cases hc : c = '.'
    · subst hc
      simp only [splitAtDot, if_pos rfl] at h ⊢
      obtain rfl : rest = f := by simpa using h
      rfl
    · simp only [splitAtDot, if_neg hc] at h ⊢
      rw [List.cons_append, ← ih h]

theorem utf8Len_append (a b : RStr) : utf8Len (a ++ b) = utf8Len a + utf8Len b := by
  simp [utf8Len]

theorem utf8Len_to_str_le {c : Cell} {d : Nat} (hn : c.is_a_number = true)
    (hd : c.digits_len ≤ d) (hpos : 0 < d) :
    utf8Len c.to_str ≤ utf8Len (c.to_str_with_digits d) := by
  cases c with
  | Text s => simp [Cell.is_a_number] at hn
  | Int i =>
    simp only [Cell.to_str, Cell.to_str_with_digits]
    rw [if_neg (by omega : ¬ d = 0), utf8Len_append]
    omega
  | Float disp =>
    rcases hsp : splitAtDot disp with ⟨ip, ofr⟩
    cases ofr with
    | none =>
      have hsd : (splitAtDot disp).2 = none := by rw [hsp]
      have h1 : (splitAtDot disp).1 = disp := splitAtDot_none_eq hsd
      rw [hsp] at h1
      simp only at h1
      simp only [Cell.to_str, Cell.to_str_with_digits, Cell.floatFormat, hsp]
      rw [if_neg (by omega : ¬ d = 0), ← h1, utf8Len_append]
      omega
    | some frac =>
      have hsd : (splitAtDot disp).2 = some frac := by rw [hsp]
      have h1 : disp = (splitAtDot disp).1 ++ '.' :: frac := splitAtDot_some_eq hsd
      rw [hsp] at h1
      simp only at h1
      have hdl : Cell.digits_len (Cell.Float disp) = utf8Len frac := by
        simp [Cell.digits_len, hsd]
      rw [hdl] at hd
      have hfl : frac.length ≤ d := le_trans (length_le_utf8Len frac) hd
      simp only [Cell.to_str, Cell.to_str_with_digits, Cell.floatFormat, hsp]
      rw [if_pos hfl, if_neg (by omega : ¬ d = 0)]
      conv_lhs => rw [h1]
      rw [utf8Len_append, utf8Len_append]
      simp only [utf8Len, List.map_cons, List.sum_cons, List.map_append, List.sum_append]
      omega


theorem mem_colCells {contents : List (List Cell)} {row : List Cell} {col : Nat} {c : Cell}
    (hrow : row ∈ contents) (hget : row.get? col = some c) : c ∈ colCells contents col :=
  List.mem_filterMap.mpr ⟨row, hrow, hget⟩

theorem colSpec_snd_ge {contents : List (List Cell)} {col : Nat} {row : List Cell} {c : Cell}
    (hrow : row ∈ contents) (hget : row.get? col = some c) (hn : c.is_a_number = true) :
    c.digits_len ≤ (colSpecAt contents col).2 := by
  have h := colSpecFold_eq contents col true 0
  rw [colSpecAt, h]
  have hm2 : c ∈ (colCells contents col).filter Cell.is_a_number :=
    List.mem_filter.mpr ⟨mem_colCells hrow hget, hn⟩
  have h3 := le_maxNat_of_mem (List.mem_map_of_mem Cell.digits_len hm2)
  simp only
  omega

theorem colSpec_fst_numeric {contents : List (List Cell)} {col : Nat} {row : List Cell} {c : Cell}
    (hfst : (colSpecAt contents col).1 = true)
    (hrow : row ∈ contents) (hget : row.get? col = some c) : c.is_a_number = true := by
  have h := colSpecFold_eq contents col true 0
  rw [colSpecAt, h] at hfst
  simp only [Bool.true_and] at hfst
  exact List.all_eq_true.mp hfst c (mem_colCells hrow hget)

theorem le_colWidthFold (contents : List (List Cell)) (spec : Bool × Nat) (na : Align)
    (col acc : Nat) : acc ≤ colWidthFold contents spec na col acc := by
  induction contents generalizing acc with
  | nil => simp [colWidthFold]
  | cons row rest ih =>
    cases hg : row.get? col with
    | none =>
      simp only [colWidthFold, hg]
      exact ih acc
    | some c =>
      simp only [colWidthFold, hg]
      exact le_trans (Nat.le_max_right _ _) (ih _)

theorem cellMeasuredWidth_le_colWidthFold (spec : Bool × Nat) (na : Align) (col : Nat)
    {row : List Cell} {c : Cell} (hget : row.get? col = some c) :
    ∀ (contents : List (List Cell)) (acc : Nat), row ∈ contents →
      cellMeasuredWidth spec na c ≤ colWidthFold contents spec na col acc := by
  intro contents
  induction contents with
  | nil => intro acc h; cases h
  | cons r rest ih =>
    intro acc hrow
    rcases List.mem_cons.mp hrow with rfl | h2
    · simp only [colWidthFold, hget]
      exact le_trans (Nat.le_max_left _ _) (le_colWidthFold rest spec na col _)
    · cases hg : r.get? col with
      | none =>
        simp only [colWidthFold, hg]
        exact ih _ h2
      | some c2 =>
        simp only [colWidthFold, hg]
        exact ih _ h2

theorem strip_line_width_le_cellMeasuredWidth (spec : Bool × Nat) (na : Align) (c : Cell)
    (hnum : spec.1 = true → c.is_a_number = true)
    (hdig : c.is_a_number = true → c.digits_len ≤ spec.2) :
    ∀ t ∈ splitNl c.to_str, strWidth (strip t) ≤ cellMeasuredWidth spec na c := by
  intro t ht
  unfold cellMeasuredWidth
  split
  · rename_i hcond
    obtain ⟨h1, h2, h3⟩ := hcond
    calc strWidth (strip t) ≤ strWidth t := strWidth_mono (strip_sublist t)
    _ ≤ utf8Len t := strWidth_le_utf8Len t
    _ ≤ utf8Len c.to_str := utf8Len_mono (splitNl_mem_sublist ht)
    _ ≤ utf8Len (c.to_str_with_digits spec.2) := utf8Len_to_str_le (hnum h1) (hdig (hnum h1)) h3
  · exact le_maxNat_of_mem (List.mem_map_of_mem (fun l => strWidth (strip l)) ht)

/-- C4: each computed column width is at least the display width of every
    stripped embedded line of every cell present in that column, and, when
    a header exists for the column, at least the display width of each of
    its stripped lines plus the fixed minimum padding of 2. -/
theorem col_width_lower_bounds (contents : List (List Cell)) (headers : List RStr)
    (num_align : Align) (col W : Nat)
    (hW : (colWidthList contents headers num_align)[col]? = some W) :
    (∀ h, headers.get? col = some h →
       ∀ t ∈ splitNl h, strWidth (strip t) + MIN_PADDING ≤ W)
    ∧ (∀ row ∈ contents, ∀ c : Cell, row.get? col = some c →
       ∀ t ∈ splitNl c.to_str, strWidth (strip t) ≤ W) := by
  have hWeq : W = colWidthAt contents headers num_align col := by
    rw [colWidthList, List.getElem?_map] at hW
    by_cases hc : col < colNb contents headers
    · rw [List.getElem?_range hc] at hW
      simpa using hW.symm
    · rw [List.getElem?_eq_none (by simpa using Nat.le_of_not_lt hc)] at hW
      simp at hW
  subst hWeq
  constructor
  · intro h hh t ht
    have hmem : strWidth (strip t) ≤ maxNat ((splitNl h).map (fun l => strWidth (strip l))) :=
      le_maxNat_of_mem (List.mem_map_of_mem (fun l => strWidth (strip l)) ht)
    have hbase := le_colWidthFold contents (colSpecAt contents col) num_align col
      (maxNat ((splitNl h).map (fun l => strWidth (strip l))) + MIN_PADDING)
    simp only [colWidthAt, hh]
    omega
  · intro row hrow c hget t ht
    have h1 := strip_line_width_le_cellMeasuredWidth (colSpecAt contents col) num_align c
      (fun hf => colSpec_fst_numeric hf hrow hget)
      (fun hn => colSpec_snd_ge hrow hget hn) t ht
    rw [colWidthAt]
    exact le_trans h1
      (cellMeasuredWidth_le_colWidthFold (colSpecAt contents col) num_align col hget contents _ hrow)

/-- C4 witness at the fancy test table, numeric column of width 9. -/
theorem col_width_lower_bounds_witness :
    strWidth (strip (("numbers").data)) + MIN_PADDING ≤ 9
    ∧ strWidth (strip (("41.9999").data)) ≤ 9 := by
  have h := col_width_lower_bounds
    [[Cell.Text ("spam").data, Cell.Float ("41.9999").data],
     [Cell.Text ("eggs").data, Cell.Int 451]]
    [("strings").data, ("numbers").data] Align.Decimal 1 9 (by decide)
  exact ⟨h.1 (("numbers").data) (by decide) (("numbers").data) (by decide),
    h.2 [Cell.Text ("spam").data, Cell.Float ("41.9999").data] (by decide)
      (Cell.Float ("41.9999").data) (by decide) (("41.9999").data) (by decide)⟩


theorem splitNl_append_cons (l t : RStr) (h : '\n' ∉ l) :
    splitNl (l ++ '\n' :: t) = l :: splitNl t := by
  induction l with
  | nil => simp [splitNl]
  | cons c rest ih =>
    have hc : c ≠ '\n' := fun hc => h (hc ▸ List.mem_cons_self c rest)
    have hr : '\n' ∉ rest := fun hr => h (List.mem_cons_of_mem c hr)
    simp only [List.cons_append, splitNl, if_neg hc, List.append_eq, ih hr]

theorem splitNl_joinNl : ∀ (lines : List RStr), lines ≠ [] → (∀ l ∈ lines, '\n' ∉ l) →
    splitNl (joinNl lines) = lines
  | [], h, _ => absurd rfl h
  | [l], _, hnl => by
    rw [joinNl, sepJoin]
    exact splitNl_no_nl (hnl l (List.mem_cons_self l []))
  | l :: l2 :: ls, _, hnl => by
    have ih := splitNl_joinNl (l2 :: ls) (List.cons_ne_nil _ _)
      (fun x hx => hnl x (List.mem_cons_of_mem l hx))
    rw [joinNl, sepJoin]
    have hre : l ++ ['\n'] ++ sepJoin ['\n'] (l2 :: ls) = l ++ '\n' :: joinNl (l2 :: ls) := by
      rw [joinNl, List.append_assoc]
      rfl
    rw [hre, splitNl_append_cons _ _ (hnl l (List.mem_cons_self l _)), ih]

theorem nlFree_sepJoin {sep : RStr} (hsep : '\n' ∉ sep) :
    ∀ {ls : List RStr}, (∀ l ∈ ls, '\n' ∉ l) → '\n' ∉ sepJoin sep ls
  | [], _ => List.not_mem_nil '\n'
  | [x], h => by
    rw [sepJoin]
    exact h x (List.mem_cons_self x [])
  | x :: y :: xs, h => by
    rw [sepJoin]
    intro hm
    rcases List.mem_append.mp hm with hm1 | hm2
    · rcases List.mem_append.mp hm1 with hx | hs
      · exact h x (List.mem_cons_self x _) hx
      · exact hsep hs
    · exact nlFree_sepJoin hsep (fun l hl => h l (List.mem_cons_of_mem x hl)) hm2

theorem nlFree_trimEnd {s : RStr} (h : '\n' ∉ s) : '\n' ∉ trimEnd s := by
  intro hm
  apply h
  rw [trimEnd] at hm
  rw [List.mem_reverse] at hm
  have h2 := (List.dropWhile_sublist isWs).subset hm
  rwa [List.mem_reverse] at h2

theorem nlFree_repeatStr {s : RStr} (n : Nat) (h : '\n' ∉ s) : '\n' ∉ repeatStr s n := by
  intro hm
  rw [repeatStr, List.mem_flatten] at hm
  obtain ⟨l, hl, hml⟩ := hm
  rw [List.mem_replicate] at hl
  exact h (hl.2 ▸ hml)

theorem nlFree_strip {s : RStr} (h : '\n' ∉ s) : '\n' ∉ strip s :=
  fun hm => h ((strip_sublist s).subset hm)

theorem nlFree_replicate_space (n : Nat) : '\n' ∉ List.replicate n ' ' := by
  intro hm
  rw [List.mem_replicate] at hm
  exact absurd hm.2 (by decide)

theorem mem_replaceAllAux : ∀ (fuel : Nat) (s pat rep : RStr) (c : Char),
    c ∈ replaceAllAux fuel s pat rep → c ∈ s ∨ c ∈ rep := by
  intro fuel
  induction fuel with
  | zero => intro s pat rep c h; exact Or.inl h
  | succ fuel ih =>
    intro s pat rep c h
    cases s with
    | nil => simp [replaceAllAux] at h
    | cons x rest =>
      rw [replaceAllAux] at h
      by_cases hp : headMatches (x :: rest) pat
      · rw [if_pos hp] at h
        rcases List.mem_append.mp h with h1 | h2
        · exact Or.inr h1
        · rcases ih _ _ _ _ h2 with h3 | h3
          · exact Or.inl (List.drop_subset _ _ h3)
          · exact Or.inr h3
      · rw [if_neg hp] at h
        rcases List.mem_cons.mp h with rfl | h2
        · exact Or.inl (List.mem_cons_self c rest)
        · rcases ih _ _ _ _ h2 with h3 | h3
          · exact Or.inl (List.mem_cons_of_mem x h3)
          · exact Or.inr h3

theorem mem_replaceAll {s pat rep : RStr} {c : Char} (h : c ∈ replaceAll s pat rep) :
    c ∈ s ∨ c ∈ rep := by
  rw [replaceAll] at h
  split at h
  · rcases List.mem_append.mp h with h1 | h2
    · exact Or.inr h1
    · clear h
      induction s with
      | nil => simp at h2
      | cons x rest ih =>
        simp only [List.foldr_cons] at h2
        rcases List.mem_cons.mp h2 with rfl | h3
        · exact Or.inl (List.mem_cons_self c rest)
        · rcases List.mem_append.mp h3 with h4 | h5
          · exact Or.inr h4
          · rcases ih h5 with h6 | h6
            · exact Or.inl (List.mem_cons_of_mem x h6)
            · exact Or.inr h6
  · exact mem_replaceAllAux _ _ _ _ _ h

theorem nlFree_justRight {s : RStr} (w : Nat) (h : '\n' ∉ s) : '\n' ∉ justRight s w := by
  rw [justRight]
  intro hm
  rcases List.mem_append.mp hm with h1 | h2
  · exact nlFree_replicate_space _ h1
  · exact h h2

theorem nlFree_justify (a : Align) (s : RStr) (w : Nat) (h : '\n' ∉ s) :
    '\n' ∉ (match a with
      | Align.Right => justRight s w
      | Align.Left => justLeft s w
      | Align.Center => justCenter s w
      | Align.Decimal => decimalJustify s w) := by
  cases a
  case Left =>
    show '\n' ∉ justLeft s w
    rw [justLeft]
    intro hm
    rcases List.mem_append.mp hm with h1 | h2
    · exact h h1
    · exact nlFree_replicate_space _ h2
  case Center =>
    show '\n' ∉ justCenter s w
    rw [justCenter]
    intro hm
    rcases List.mem_append.mp hm with h1 | h2
    · rcases List.mem_append.mp h1 with h3 | h4
      · exact nlFree_replicate_space _ h3
      · exact h h4
    · exact nlFree_replicate_space _ h2
  case Right =>
    exact nlFree_justRight w h
  case Decimal =>
    show '\n' ∉ decimalJustify s w
    rw [decimalJustify]
    have hout := nlFree_justRight w h
    split
    · split
      · intro hm
        rcases List.mem_append.mp hm with h1 | h2
        · exact hout (List.take_subset _ _ h1)
        · exact nlFree_replicate_space _ h2
      · exact hout
    · exact hout

theorem nlFree_formatWord (word : RStr) (w : Nat) (spec : Bool × Nat) (na sa : Align)
    (h : '\n' ∉ word) : '\n' ∉ formatWord word w spec na sa := by
  simp only [formatWord]
  split
  · exact nlFree_justify _ _ _ (nlFree_strip h)
  · intro hm
    rcases mem_replaceAll hm with h1 | h2
    · exact nlFree_justify _ _ _ (nlFree_strip h) h1
    · exact h h2


/-- Whether a string is free of newline characters. -/
def strNlFreeB (s : RStr) : Bool := !(s.contains '\n')

/-- Whether a border line descriptor is free of newline characters. -/
def lineNlFreeB (l : Line) : Bool :=
  strNlFreeB l.begin && strNlFreeB l.hline && strNlFreeB l.sep && strNlFreeB l.end_

/-- Whether a data row descriptor is free of newline characters. -/
def rowNlFreeB (r : DataRow) : Bool := strNlFreeB r.begin && strNlFreeB r.sep && strNlFreeB r.end_

/-- Whether an optional border line is free of newline characters. -/
def optLineNlFreeB : Option Line → Bool
  | some l => lineNlFreeB l
  | none => true

/-- Whether a style specification is free of newline characters. -/
def fmtNlFreeB (fmt : TableFormat) : Bool :=
  optLineNlFreeB fmt.lineabove && optLineNlFreeB fmt.linebelowheader &&
  optLineNlFreeB fmt.linebetweenrows && optLineNlFreeB fmt.linebelow &&
  rowNlFreeB fmt.headerrow && rowNlFreeB fmt.datarow

theorem fmt_nlFreeB (style : Style) : fmtNlFreeB style.to_format = true := by
  cases style <;> decide

theorem not_mem_of_strNlFreeB {s : RStr} (h : strNlFreeB s = true) : '\n' ∉ s := by
  intro hm
  have hc : s.contains '\n' = true := List.elem_iff.mpr hm
  rw [strNlFreeB, hc] at h
  exact absurd h (by decide)

theorem nlFree_create_line {l : Line} (cw : List Nat) (h : lineNlFreeB l = true) :
    '\n' ∉ create_line l cw := by
  rw [create_line]
  simp only [lineNlFreeB, Bool.and_eq_true] at h
  obtain ⟨⟨⟨h1, h2⟩, h3⟩, h4⟩ := h
  apply nlFree_trimEnd
  intro hm
  rcases List.mem_append.mp hm with hm1 | hm2
  · rcases List.mem_append.mp hm1 with hb | hj
    · exact not_mem_of_strNlFreeB h1 hb
    · refine nlFree_sepJoin (not_mem_of_strNlFreeB h3) ?_ hj
      intro x hx
      obtain ⟨w, hw, rfl⟩ := List.mem_map.mp hx
      exact nlFree_repeatStr w (not_mem_of_strNlFreeB h2)
  · exact not_mem_of_strNlFreeB h4 hm2

theorem nlFree_create_data_line {dr : DataRow} (col_nb : Nat) (cw : List Nat)
    (cs : List (Bool × Nat)) (na sa : Align) (content : List RStr)
    (h : rowNlFreeB dr = true) (hc : ∀ f ∈ content, '\n' ∉ f) :
    '\n' ∉ create_data_line dr col_nb cw cs na sa content := by
  rw [create_data_line]
  simp only [rowNlFreeB, Bool.and_eq_true] at h
  obtain ⟨⟨h1, h2⟩, h3⟩ := h
  apply nlFree_trimEnd
  intro hm
  rcases List.mem_append.mp hm with hm1 | hm2
  · rcases List.mem_append.mp hm1 with hb | hj
    · exact not_mem_of_strNlFreeB h1 hb
    · refine nlFree_sepJoin (not_mem_of_strNlFreeB h2) ?_ hj
      intro x hx
      obtain ⟨col, hcol, rfl⟩ := List.mem_map.mp hx
      apply nlFree_formatWord
      cases hg : (content.get? col) with
      | none => simp [List.not_mem_nil]
      | some f =>
        simp only [hg, Option.getD_some]
        exact hc f (List.get?_mem hg)
  · exact not_mem_of_strNlFreeB h3 hm2

theorem splitNl_mem_nlFree : ∀ {s t : RStr}, t ∈ splitNl s → '\n' ∉ t := by
  intro s
  induction s with
  | nil =>
    intro t ht
    simp only [splitNl, List.mem_singleton] at ht
    subst ht
    exact List.not_mem_nil '\n'
  | cons c rest ih =>
    intro t ht
    by_cases hc : c = '\n'
    · subst hc
      simp only [splitNl, if_pos rfl] at ht
      rcases List.mem_cons.mp ht with rfl | h2
      · exact List.not_mem_nil '\n'
      · exact ih h2
    · simp only [splitNl, if_neg hc] at ht
      cases hsp : splitNl rest with
      | nil =>
        rw [hsp] at ht
        simp only [List.mem_singleton] at ht
        subst ht
        intro hm
        rcases List.mem_cons.mp hm with h1 | h2
        · exact hc h1.symm
        · exact absurd h2 (List.not_mem_nil '\n')
      | cons l ls =>
        rw [hsp] at ht
        rcases List.mem_cons.mp ht with rfl | h2
        · have hl : l ∈ splitNl rest := hsp ▸ List.mem_cons_self l ls
          intro hm
          rcases List.mem_cons.mp hm with h1 | h2
          · exact hc h1.symm
          · exact ih hl h2
        · exact ih (hsp ▸ List.mem_cons_of_mem l h2)

theorem line_to_multi_mem_nlFree {row : List RStr} {phys : List RStr} {s : RStr}
    (hp : phys ∈ line_to_multi row) (hs : s ∈ phys) : '\n' ∉ s := by
  rw [line_to_multi_eq] at hp
  obtain ⟨i, hi, rfl⟩ := List.mem_map.mp hp
  rw [physLineAt] at hs
  obtain ⟨x, hx, rfl⟩ := List.mem_map.mp hs
  cases hg : (splitNl x).get? i with
  | none => simp [hg, List.not_mem_nil]
  | some t =>
    simp only [hg, Option.getD_some]
    exact splitNl_mem_nlFree (List.get?_mem hg)

theorem mem_optLine {o : Option Line} {cw : List Nat} {l : RStr} (h : l ∈ optLine o cw) :
    ∃ li, o = some li ∧ l = create_line li cw := by
  cases o with
  | none => simp [optLine] at h
  | some li =>
    simp only [optLine, List.mem_singleton] at h
    exact ⟨li, rfl, h⟩

theorem nlFree_optLine {o : Option Line} {cw : List Nat} {l : RStr}
    (ho : optLineNlFreeB o = true) (h : l ∈ optLine o cw) : '\n' ∉ l := by
  obtain ⟨li, rfl, rfl⟩ := mem_optLine h
  exact nlFree_create_line cw (by simpa [optLineNlFreeB] using ho)

theorem nlFree_rowBlock {dr : DataRow} {col_nb : Nat} {cw : List Nat} {cs : List (Bool × Nat)}
    {na sa : Align} {cells : List RStr} {l : RStr} (hdr : rowNlFreeB dr = true)
    (h : l ∈ rowBlock dr col_nb cw cs na sa cells) : '\n' ∉ l := by
  rw [rowBlock] at h
  obtain ⟨cl, hcl, rfl⟩ := List.mem_map.mp h
  exact nlFree_create_data_line col_nb cw cs na sa cl hdr
    (fun f hf => line_to_multi_mem_nlFree hcl hf)

theorem nlFree_contentBlock {fmt : TableFormat} {col_nb : Nat} {cw : List Nat}
    {cs : List (Bool × Nat)} {na sa : Align} {l : RStr}
    (hbr : optLineNlFreeB fmt.linebetweenrows = true) (hdr : rowNlFreeB fmt.datarow = true) :
    ∀ {contents : List (List Cell)},
      l ∈ contentBlock fmt col_nb cw cs na sa contents → '\n' ∉ l := by
  intro contents h
  cases contents with
  | nil => simp [contentBlock] at h
  | cons r rs =>
    rw [contentBlock] at h
    rcases List.mem_append.mp h with h1 | h2
    · exact nlFree_rowBlock hdr h1
    · rw [List.mem_flatten] at h2
      obtain ⟨x, hx, hlx⟩ := h2
      obtain ⟨row, hrow, rfl⟩ := List.mem_map.mp hx
      rcases List.mem_append.mp hlx with h3 | h4
      · exact nlFree_optLine hbr h3
      · exact nlFree_rowBlock hdr h4

theorem tabulateLines_nlFree (style : Style) (contents : List (List Cell)) (headers : List RStr)
    (sa na : Align) : ∀ l ∈ tabulateLines style contents headers sa na, '\n' ∉ l := by
  intro l hl
  have hfmt := fmt_nlFreeB style
  simp only [fmtNlFreeB, Bool.and_eq_true] at hfmt
  obtain ⟨⟨⟨⟨⟨ha, hbh⟩, hbr⟩, hb⟩, hhr⟩, hdr⟩ := hfmt
  simp only [tabulateLines] at hl
  rcases List.mem_append.mp hl with h123 | h4
  · rcases List.mem_append.mp h123 with h12 | h3
    · rcases List.mem_append.mp h12 with h1 | h2
      · split at h1
        · simp at h1
        · exact nlFree_optLine ha h1
      · split at h2
        · rcases List.mem_append.mp h2 with h5 | h6
          · exact nlFree_rowBlock hhr h5
          · exact nlFree_optLine hbh h6
        · simp at h2
    · exact nlFree_contentBlock hbr hdr h3
  · split at h4
    · simp at h4
    · exact nlFree_optLine hb h4

theorem line_to_multi_ne_nil (row : List RStr) : line_to_multi row ≠ [] := by
  rw [line_to_multi_eq]
  intro h
  rw [List.map_eq_nil_iff, List.range_eq_nil] at h
  rw [rowPhysCount] at h
  omega

theorem tabulateLines_ne_nil (style : Style) (contents : List (List Cell)) (headers : List RStr)
    (sa na : Align) (hwf : headers ≠ [] ∨ contents ≠ []) :
    tabulateLines style contents headers sa na ≠ [] := by
  intro h
  simp only [tabulateLines, List.append_eq_nil] at h
  obtain ⟨⟨⟨h1, h2⟩, h3⟩, h4⟩ := h
  rcases hwf with hh | hc
  · rw [if_pos (by simpa using hh)] at h2
    rcases List.append_eq_nil.mp h2 with ⟨h5, -⟩
    rw [rowBlock, List.map_eq_nil_iff] at h5
    exact line_to_multi_ne_nil headers h5
  · cases contents with
    | nil => exact hc rfl
    | cons r rs =>
      rw [contentBlock] at h3
      rcases List.append_eq_nil.mp h3 with ⟨h5, -⟩
      rw [rowBlock, List.map_eq_nil_iff] at h5
      exact line_to_multi_ne_nil _ h5


theorem length_optLine (o : Option Line) (cw : List Nat) :
    (optLine o cw).length = if o.isSome then 1 else 0 := by
  cases o <;> simp [optLine]

theorem length_rowBlock (dr : DataRow) (col_nb : Nat) (cw : List Nat) (cs : List (Bool × Nat))
    (na sa : Align) (cells : List RStr) :
    (rowBlock dr col_nb cw cs na sa cells).length = (line_to_multi cells).length := by
  rw [rowBlock, List.length_map]

theorem sum_map_add_const {α : Type} (l : List α) (a : Nat) (f : α → Nat) :
    (l.map (fun x => a + f x)).sum = l.length * a + (l.map f).sum := by
  induction l with
  | nil => simp
  | cons x xs ih =>
    simp only [List.map_cons, List.sum_cons, List.length_cons, ih, Nat.succ_mul]
    omega

theorem length_contentBlock (fmt : TableFormat) (col_nb : Nat) (cw : List Nat)
    (cs : List (Bool × Nat)) (na sa : Align) :
    ∀ contents, (contentBlock fmt col_nb cw cs na sa contents).length
      = (contents.map (fun row => (line_to_multi (rowStrings cs row)).length)).sum
        + (if fmt.linebetweenrows.isSome then contents.length - 1 else 0)
  | [] => by simp [contentBlock]
  | r :: rs => by
    rw [contentBlock, List.length_append, length_rowBlock, List.length_flatten, List.map_map]
    have hpt : (rs.map (List.length ∘ fun row =>
        optLine fmt.linebetweenrows cw
        ++ rowBlock fmt.datarow col_nb cw cs na sa (rowStrings cs row)))
      = rs.map (fun row => (if fmt.linebetweenrows.isSome then 1 else 0)
          + (line_to_multi (rowStrings cs row)).length) := by
      refine List.map_eq_map_iff.mpr (fun row _ => ?_)
      simp only [Function.comp_apply, List.length_append, length_optLine, length_rowBlock]
    rw [hpt, sum_map_add_const]
    simp only [List.map_cons, List.sum_cons, List.length_cons]
    cases fmt.linebetweenrows with
    | none => simp
    | some l =>
      simp only [Option.isSome_some, if_pos]
      omega

/-- Whether the line above the table is emitted. -/
def shownLineAbove (fmt : TableFormat) (hasheader : Bool) : Bool :=
  !(hasheader && fmt.hidelineaboveifheader) && fmt.lineabove.isSome

/-- Whether the line below the table is emitted. -/
def shownLineBelow (fmt : TableFormat) (hasheader : Bool) : Bool :=
  !(hasheader && fmt.hidelinebelowifheader) && fmt.linebelow.isSome

/-- The line-count formula: line above if shown, plus the header physical
    lines and the line below the header when headers are present, plus the
    per-row physical lines, plus one separator between consecutive rows
    when the style has one, plus the line below if shown. -/
def lineCountFormula (style : Style) (contents : List (List Cell)) (headers : List RStr) : Nat :=
  let fmt := style.to_format
  let hasheader := !headers.isEmpty
  (if shownLineAbove fmt hasheader then 1 else 0)
  + (if hasheader then (line_to_multi headers).length else 0)
  + (if hasheader && fmt.linebelowheader.isSome then 1 else 0)
  + (contents.map (fun row =>
      (line_to_multi (rowStrings (colSpecList contents headers) row)).length)).sum
  + (if fmt.linebetweenrows.isSome then contents.length - 1 else 0)
  + (if shownLineBelow fmt hasheader then 1 else 0)

theorem tabulateLines_length (style : Style) (contents : List (List Cell)) (headers : List RStr)
    (sa na : Align) :
    (tabulateLines style contents headers sa na).length
      = lineCountFormula style contents headers := by
  simp only [tabulateLines, lineCountFormula, List.length_append]
  rw [length_contentBlock]
  have h1 : (if (!headers.isEmpty && (style.to_format).hidelineaboveifheader) then ([] : List RStr)
      else optLine (style.to_format).lineabove (colWidthList contents headers na)).length
      = (if shownLineAbove style.to_format (!headers.isEmpty) then 1 else 0) := by
    cases hb : (!headers.isEmpty && (style.to_format).hidelineaboveifheader) with
    | true => simp [shownLineAbove, hb]
    | false =>
      rw [if_neg (by simp [hb]), length_optLine]
      simp [shownLineAbove, hb]
  have h4 : (if (!headers.isEmpty && (style.to_format).hidelinebelowifheader) then ([] : List RStr)
      else optLine (style.to_format).linebelow (colWidthList contents headers na)).length
      = (if shownLineBelow style.to_format (!headers.isEmpty) then 1 else 0) := by
    cases hb : (!headers.isEmpty && (style.to_format).hidelinebelowifheader) with
    | true => simp [shownLineBelow, hb]
    | false =>
      rw [if_neg (by simp [hb]), length_optLine]
      simp [shownLineBelow, hb]
  have h2 : (if (!headers.isEmpty) then
        rowBlock (style.to_format).headerrow (colNb contents headers)
          (colWidthList contents headers na) (colSpecList contents headers) na sa headers
        ++ optLine (style.to_format).linebelowheader (colWidthList contents headers na)
      else []).length
      = (if (!headers.isEmpty) then (line_to_multi headers).length else 0)
        + (if (!headers.isEmpty) && (style.to_format).linebelowheader.isSome then 1 else 0) := by
    cases hb : (!headers.isEmpty) with
    | true =>
      rw [if_pos rfl, if_pos rfl, List.length_append, length_rowBlock, length_optLine]
      simp
    | false => simp
  rw [h1, h2, h4]
  omega

/-- C3: for well-formed grids (at least one header or one content row) the
    number of lines of the render output, splitting on the newline
    character, equals: 1 when the line above is shown, plus the header
    physical line count when headers are present, plus 1 when the line
    below the header is shown, plus the sum over content rows of each
    physical line count, plus rows minus one when the style has a line
    between rows, plus 1 when the line below is shown; the lines are
    joined by single newlines with nothing appended after the last. -/
theorem render_line_count (style : Style) (contents : List (List Cell)) (headers : List RStr)
    (str_align num_align : Align) (hwf : headers ≠ [] ∨ contents ≠ []) :
    (splitNl (tabulateCore style contents headers str_align num_align)).length
      = lineCountFormula style contents headers := by
  rw [tabulateCore,
    splitNl_joinNl _ (tabulateLines_ne_nil style contents headers str_align num_align hwf)
      (tabulateLines_nlFree style contents headers str_align num_align),
    tabulateLines_length]

/-- C3 witness at the fancy test table: seven output lines. -/
theorem render_line_count_witness :
    (splitNl (tabulateCore Style.Fancy
      [[Cell.Text ("spam").data, Cell.Float ("41.9999").data],
       [Cell.Text ("eggs").data, Cell.Int 451]]
      [("strings").data, ("numbers").data] Align.Left Align.Decimal)).length = 7
    ∧ lineCountFormula Style.Fancy
      [[Cell.Text ("spam").data, Cell.Float ("41.9999").data],
       [Cell.Text ("eggs").data, Cell.Int 451]]
      [("strings").data, ("numbers").data] = 7 := by
  have h := render_line_count Style.Fancy
    [[Cell.Text ("spam").data, Cell.Float ("41.9999").data],
     [Cell.Text ("eggs").data, Cell.Int 451]]
    [("strings").data, ("numbers").data] Align.Left Align.Decimal
    (Or.inl (by decide))
  exact ⟨h.trans (by decide), by decide⟩


end Stybulate
